import Mathlib

/-!
Shallow embedding of the shaq SPSC shared-memory queue (src/lib.rs) and proofs
about its ring-buffer protocol.

Machine integers (`usize` on a 64-bit target) are modelled as `Nat` together
with explicit reduction modulo `2 ^ 64` exactly where the Rust code performs
wrapping arithmetic (release-mode semantics: `wrapping_sub`/`wrapping_add` are
explicit in the source; plain `+`, `-`, `*` on `usize` wrap in release builds).
Pointers into the item buffer are modelled by the slot index the code computes
(`buffer.add(index)` is determined by `index`).
-/

namespace Shaq

/-- The modulus of 64-bit `usize` arithmetic, `2 ^ 64` as a literal. -/
def USIZE_MOD : Nat := 18446744073709551616

/-- Rust `usize::wrapping_add` for values below `2 ^ 64`. -/
def wrapping_add (a b : Nat) : Nat := (a + b) % USIZE_MOD

/-- Rust `usize::wrapping_sub` for values below `2 ^ 64`. -/
def wrapping_sub (a b : Nat) : Nat := (a + (USIZE_MOD - b)) % USIZE_MOD

/-- Rust `usize` multiplication in release mode (wraps modulo `2 ^ 64`). -/
def wrapping_mul (a b : Nat) : Nat := (a * b) % USIZE_MOD

/-- Rust `usize::is_power_of_two` for values below `2 ^ 64`: the value is
`2 ^ k` for some bit position `k < 64`. -/
def is_power_of_two (n : Nat) : Bool := (List.range 64).any fun k => n == 2 ^ k

/-- Fuel-bounded floor base-2 logarithm; agrees with the mathematical
`⌊log₂ n⌋` whenever `n < 2 ^ fuel`.  Structural recursion on the fuel keeps it
kernel-reducible on concrete 64-bit inputs. -/
def log2fuel : Nat → Nat → Nat
  | 0, _ => 0
  | fuel + 1, n => if 2 ≤ n then log2fuel fuel (n / 2) + 1 else 0

/-- Rust `usize::next_power_of_two` in release mode: the smallest power of two
that is `≥ n` (and `1` for `n ≤ 1`); when that power would be `2 ^ 64` the
result wraps to `0`. -/
def next_power_of_two (n : Nat) : Nat :=
  if n ≤ 1 then 1 else 2 ^ (log2fuel 64 (n - 1) + 1) % USIZE_MOD

/-- `size_of::<SharedQueueHeader>()`: the header is `repr(C)` with two 64-byte
aligned `CacheAlignedAtomicSize` fields (64 bytes each) followed by a `usize`
`buffer_size` field, padded to the 64-byte struct alignment: 192 bytes. -/
def HEADER_SIZE : Nat := 192

/-- Outcome of `SharedQueueHeader::calculate_buffer_size_in_items`: a success
value, an `Error::InvalidBufferSize`, or a Rust panic (division by zero when
`size_of::<T>() == 0`; `/` on `usize` panics on a zero divisor in every
build profile). -/
inductive CalcOutcome where
  | ok (items : Nat)
  | invalidBufferSize
  | divByZero
deriving DecidableEq, Repr

/-- `SharedQueueHeader::calculate_buffer_size_in_items::<T>(file_size)` with
`itemSize = size_of::<T>()` and `itemAlign = align_of::<T>()`.
`!(alignment - 1)` is bitwise NOT on `usize`, i.e. `2 ^ 64 - 1 - x` applied to
the wrapped value of `alignment - 1`. -/
def calculate_buffer_size_in_items (itemSize itemAlign fileSize : Nat) : CalcOutcome :=
  let buffer_offset := HEADER_SIZE
  let buffer_offset :=
    Nat.land (wrapping_sub (wrapping_add buffer_offset itemAlign) 1)
      ((USIZE_MOD - 1) - wrapping_sub itemAlign 1)
  if fileSize < buffer_offset then .invalidBufferSize
  else if itemSize = 0 then .divByZero
  else
    let buffer_size_in_bytes := fileSize - buffer_offset
    let buffer_size_in_items := buffer_size_in_bytes / itemSize
    if is_power_of_two buffer_size_in_items then .ok buffer_size_in_items
    else
      let rounded := next_power_of_two buffer_size_in_items >>> 1
      if rounded = 0 then .invalidBufferSize else .ok rounded

/-- The spec's `align_up`: `n` rounded up to the next multiple of `a`. -/
def align_up (n a : Nat) : Nat := (n + a - 1) / a * a

/-- The control block at offset 0 of the region: `write` and `read` cursors
and the immutable `buffer_size` (capacity in items). -/
structure SharedQueueHeader where
  write : Nat
  read : Nat
  buffer_size : Nat
deriving DecidableEq, Repr

/-- `SharedQueueHeader::initialize`: stores `write = 0`, `read = 0` and the
computed capacity. -/
def initHeader (buffer_size_in_items : Nat) : SharedQueueHeader :=
  { write := 0, read := 0, buffer_size := buffer_size_in_items }

/-- Result of the `SharedQueueHeader::join` validation. -/
inductive JoinResult where
  | ok (hdr : SharedQueueHeader)
  | invalidBufferSize
deriving DecidableEq, Repr

/-- The validation performed by `SharedQueueHeader::join::<T>` on an existing
header mapped from a file of `fileSize` bytes.  The arithmetic
`buffer_size * size_of::<T>() + size_of::<Self>()` wraps in release mode.
On success the header is returned unchanged (the join path performs no
store into the region). -/
def joinValidate (hdr : SharedQueueHeader) (itemSize fileSize : Nat) : JoinResult :=
  if hdr.buffer_size = 0 ∨ is_power_of_two hdr.buffer_size = false ∨
      fileSize < wrapping_add (wrapping_mul hdr.buffer_size itemSize) HEADER_SIZE
  then .invalidBufferSize
  else .ok hdr

/-- The process-local part of `SharedQueue<T>`: the mask and the two private
shadow cursors.  The shared header is passed explicitly to every operation
that dereferences `self.header`. -/
structure SharedQueue where
  buffer_mask : Nat
  cached_write : Nat
  cached_read : Nat
deriving DecidableEq, Repr

/-- `SharedQueue::load_write`: acquire-load the header's `write` cursor into
the private cache. -/
def load_write (hdr : SharedQueueHeader) (q : SharedQueue) : SharedQueue :=
  { q with cached_write := hdr.write }

/-- `SharedQueue::load_read`: acquire-load the header's `read` cursor into
the private cache. -/
def load_read (hdr : SharedQueueHeader) (q : SharedQueue) : SharedQueue :=
  { q with cached_read := hdr.read }

/-- `SharedQueue::from_header`: seeds `buffer_mask = buffer_size - 1`, zeroes
the caches, then loads both cursors from the header. -/
def from_header (hdr : SharedQueueHeader) : SharedQueue :=
  load_read hdr (load_write hdr
    { buffer_mask := hdr.buffer_size - 1, cached_write := 0, cached_read := 0 })

/-- `SharedQueue::mask`. -/
def mask (q : SharedQueue) (index : Nat) : Nat := Nat.land index q.buffer_mask

/-- `Producer::reserve`: returns the reserved slot index (the pointer
`buffer.add(index)` is determined by it) and the updated private state; the
shared header is only read (`buffer_size`), never written. -/
def Producer.reserve (hdr : SharedQueueHeader) (q : SharedQueue) :
    Option Nat × SharedQueue :=
  if hdr.buffer_size ≤ wrapping_sub q.cached_write q.cached_read then (none, q)
  else
    let reserved_index := mask q q.cached_write
    (some reserved_index, { q with cached_write := wrapping_add q.cached_write 1 })

/-- `Producer::commit`: release-store the private `cached_write` into the
header's `write` cursor. -/
def Producer.commit (q : SharedQueue) (hdr : SharedQueueHeader) : SharedQueueHeader :=
  { hdr with write := q.cached_write }

/-- `Producer::sync`. -/
def Producer.sync (hdr : SharedQueueHeader) (q : SharedQueue) : SharedQueue :=
  load_read hdr q

/-- `Consumer::try_read`: returns the read slot index and the updated private
state; the shared header is not accessed at all. -/
def Consumer.try_read (q : SharedQueue) : Option Nat × SharedQueue :=
  if q.cached_read = q.cached_write then (none, q)
  else
    let read_index := mask q q.cached_read
    (some read_index, { q with cached_read := wrapping_add q.cached_read 1 })

/-- `Consumer::finalize`: release-store the private `cached_read` into the
header's `read` cursor. -/
def Consumer.finalize (q : SharedQueue) (hdr : SharedQueueHeader) : SharedQueueHeader :=
  { hdr with read := q.cached_read }

/-- `Consumer::sync`. -/
def Consumer.sync (hdr : SharedQueueHeader) (q : SharedQueue) : SharedQueue :=
  load_write hdr q

/-- Whole-queue state: the shared header plus the producer's and the
consumer's private caches. -/
structure Sys where
  hdr : SharedQueueHeader
  prod : SharedQueue
  cons : SharedQueue
deriving DecidableEq, Repr

/-- The six steady-state operations of the protocol. -/
inductive Op where
  | reserve
  | commit
  | psync
  | try_read
  | finalize
  | csync
deriving DecidableEq, Repr

/-- One protocol step, delegating to the embedded operations (the values
returned by `reserve`/`try_read` do not affect the state evolution). -/
def stepOp (s : Sys) : Op → Sys
  | .reserve => { s with prod := (Producer.reserve s.hdr s.prod).2 }
  | .commit => { s with hdr := Producer.commit s.prod s.hdr }
  | .psync => { s with prod := Producer.sync s.hdr s.prod }
  | .try_read => { s with cons := (Consumer.try_read s.cons).2 }
  | .finalize => { s with hdr := Consumer.finalize s.cons s.hdr }
  | .csync => { s with cons := Consumer.sync s.hdr s.cons }

/-- Run a sequence of operations. -/
def run (s : Sys) (ops : List Op) : Sys := ops.foldl stepOp s

/-- A freshly created queue of capacity `cap`: the header is initialized and
both handles are constructed from it. -/
def initSys (cap : Nat) : Sys :=
  { hdr := initHeader cap
    prod := from_header (initHeader cap)
    cons := from_header (initHeader cap) }

/-- Ghost (unbounded-counter) step: identical to `stepOp` except that the
cursors count in unbounded naturals instead of wrapping modulo `2 ^ 64`.
The spec phrases the global invariant in terms of these unbounded counters. -/
def stepA (s : Sys) : Op → Sys
  | .reserve =>
    if s.hdr.buffer_size ≤ s.prod.cached_write - s.prod.cached_read then s
    else { s with prod := { s.prod with cached_write := s.prod.cached_write + 1 } }
  | .commit => { s with hdr := { s.hdr with write := s.prod.cached_write } }
  | .psync => { s with prod := { s.prod with cached_read := s.hdr.read } }
  | .try_read =>
    if s.cons.cached_read = s.cons.cached_write then s
    else { s with cons := { s.cons with cached_read := s.cons.cached_read + 1 } }
  | .finalize => { s with hdr := { s.hdr with read := s.cons.cached_read } }
  | .csync => { s with cons := { s.cons with cached_write := s.hdr.write } }

/-- Run of the ghost machine. -/
def runA (s : Sys) (ops : List Op) : Sys := ops.foldl stepA s

/-- Reduce every cursor of a ghost state modulo `2 ^ 64` (capacity and masks
are immutable and never wrap). -/
def project (s : Sys) : Sys :=
  { hdr := { write := s.hdr.write % USIZE_MOD, read := s.hdr.read % USIZE_MOD,
             buffer_size := s.hdr.buffer_size }
    prod := { buffer_mask := s.prod.buffer_mask,
              cached_write := s.prod.cached_write % USIZE_MOD,
              cached_read := s.prod.cached_read % USIZE_MOD }
    cons := { buffer_mask := s.cons.buffer_mask,
              cached_write := s.cons.cached_write % USIZE_MOD,
              cached_read := s.cons.cached_read % USIZE_MOD } }

/-- Inductive invariant of the ghost machine: the producer's cached read
cursor lags the published `read`, which lags the consumer's private `read`,
which is at most the consumer's cached `write`, which lags the published
`write`, which lags the producer's private `write`; and total occupancy is at
most the capacity, which fits in a `usize`. -/
def GoodSys (s : Sys) : Prop :=
  s.prod.cached_read ≤ s.hdr.read ∧
  s.hdr.read ≤ s.cons.cached_read ∧
  s.cons.cached_read ≤ s.cons.cached_write ∧
  s.cons.cached_write ≤ s.hdr.write ∧
  s.hdr.write ≤ s.prod.cached_write ∧
  s.prod.cached_write - s.prod.cached_read ≤ s.hdr.buffer_size ∧
  s.hdr.buffer_size < USIZE_MOD

/-- Componentwise order on the six cursors of two states. -/
def SysLE (s t : Sys) : Prop :=
  s.hdr.write ≤ t.hdr.write ∧ s.hdr.read ≤ t.hdr.read ∧
  s.prod.cached_write ≤ t.prod.cached_write ∧
  s.prod.cached_read ≤ t.prod.cached_read ∧
  s.cons.cached_write ≤ t.cons.cached_write ∧
  s.cons.cached_read ≤ t.cons.cached_read

/-- `k` consecutive `reserve`+`commit` pairs, oldest first. -/
def rcPairs : Nat → List Op
  | 0 => []
  | k + 1 => rcPairs k ++ [Op.reserve, Op.commit]

end Shaq

namespace Shaq

theorem USIZE_MOD_eq : USIZE_MOD = 2 ^ 64 := by norm_num [USIZE_MOD]

theorem is_power_of_two_iff {n : Nat} :
    is_power_of_two n = true ↔ ∃ k, k < 64 ∧ n = 2 ^ k := by
  unfold is_power_of_two
  simp [List.any_eq_true, List.mem_range, beq_iff_eq]

theorem is_power_of_two_le {n : Nat} (h : is_power_of_two n = true) : n ≤ 2 ^ 63 := by
  obtain ⟨k, hk, rfl⟩ := is_power_of_two_iff.mp h
  exact Nat.pow_le_pow_right (by norm_num) (by omega)

theorem is_power_of_two_pos {n : Nat} (h : is_power_of_two n = true) : 0 < n := by
  obtain ⟨k, _, rfl⟩ := is_power_of_two_iff.mp h
  exact Nat.pos_pow_of_pos k (by norm_num)

theorem is_power_of_two_lt_usize {n : Nat} (h : is_power_of_two n = true) :
    n < USIZE_MOD := by
  have := is_power_of_two_le h
  simp only [USIZE_MOD]
  omega

theorem wrapping_sub_mod_mod {a b : Nat} (hba : b ≤ a) (hlt : a - b < USIZE_MOD) :
    wrapping_sub (a % USIZE_MOD) (b % USIZE_MOD) = a - b := by
  simp only [wrapping_sub, USIZE_MOD] at hlt ⊢
  omega

theorem mod_eq_mod_iff_usize {a b : Nat} (hba : b ≤ a) (hlt : a - b < USIZE_MOD) :
    a % USIZE_MOD = b % USIZE_MOD ↔ a = b := by
  simp only [USIZE_MOD] at hlt ⊢
  omega

theorem stepA_good {s : Sys} (h : GoodSys s) (op : Op) : GoodSys (stepA s op) := by
  obtain ⟨h1, h2, h3, h4, h5, h6, h7⟩ := h
  cases op with
  | reserve =>
    simp only [stepA]
    split_ifs with hg
    · exact ⟨h1, h2, h3, h4, h5, h6, h7⟩
    · simp only [GoodSys]
      simp
      omega
  | commit =>
    simp only [GoodSys, stepA]
    simp
    omega
  | psync =>
    simp only [GoodSys, stepA]
    simp
    omega
  | try_read =>
    simp only [stepA]
    split_ifs with hg
    · exact ⟨h1, h2, h3, h4, h5, h6, h7⟩
    · simp only [GoodSys]
      simp
      omega
  | finalize =>
    simp only [GoodSys, stepA]
    simp
    omega
  | csync =>
    simp only [GoodSys, stepA]
    simp
    omega

end Shaq

namespace Shaq

theorem stepOp_project {s : Sys} (h : GoodSys s) (op : Op) :
    stepOp (project s) op = project (stepA s op) := by
  obtain ⟨h1, h2, h3, h4, h5, h6, h7⟩ := h
  cases op with
  | reserve =>
    have hsub : wrapping_sub (s.prod.cached_write % USIZE_MOD)
        (s.prod.cached_read % USIZE_MOD)
        = s.prod.cached_write - s.prod.cached_read :=
      wrapping_sub_mod_mod (by omega) (by omega)
    simp only [stepOp, stepA, Producer.reserve, project, hsub]
    split_ifs with hg
    · rfl
    · simp [wrapping_add, Nat.mod_add_mod]
  | commit =>
    simp [stepOp, stepA, Producer.commit, project]
  | psync =>
    simp [stepOp, stepA, Producer.sync, load_read, project]
  | try_read =>
    have hiff : s.cons.cached_read % USIZE_MOD = s.cons.cached_write % USIZE_MOD
        ↔ s.cons.cached_read = s.cons.cached_write := by
      rw [eq_comm, mod_eq_mod_iff_usize (by omega) (by omega), eq_comm]
    simp only [stepOp, stepA, Consumer.try_read, project]
    split_ifs with hg hg2 hg2
    · rfl
    · exact absurd (hiff.mp hg) hg2
    · exact absurd (hiff.mpr hg2) hg
    · simp [wrapping_add, Nat.mod_add_mod]
  | finalize =>
    simp [stepOp, stepA, Consumer.finalize, project]
  | csync =>
    simp [stepOp, stepA, Consumer.sync, load_write, project]

theorem run_project {s : Sys} (h : GoodSys s) (ops : List Op) :
    run (project s) ops = project (runA s ops) ∧ GoodSys (runA s ops) := by
  induction ops generalizing s with
  | nil => exact ⟨rfl, h⟩
  | cons op ops ih =>
    obtain ⟨e2, g2⟩ := ih (stepA_good h op)
    refine ⟨?_, g2⟩
    simp only [run, runA, List.foldl_cons] at e2 ⊢
    rw [stepOp_project h op]
    exact e2

theorem stepA_mono {s : Sys} (h : GoodSys s) (op : Op) : SysLE s (stepA s op) := by
  obtain ⟨h1, h2, h3, h4, h5, h6, h7⟩ := h
  cases op with
  | reserve =>
    simp only [stepA]
    split_ifs with hg
    · simp [SysLE]
    · simp only [SysLE]
      simp
  | commit =>
    simp only [SysLE, stepA]
    simp
    all_goals omega
  | psync =>
    simp only [SysLE, stepA]
    simp
    all_goals omega
  | try_read =>
    simp only [stepA]
    split_ifs with hg
    · simp [SysLE]
    · simp only [SysLE]
      simp
  | finalize =>
    simp only [SysLE, stepA]
    simp
    all_goals omega
  | csync =>
    simp only [SysLE, stepA]
    simp
    all_goals omega

theorem SysLE_trans {s t u : Sys} (h1 : SysLE s t) (h2 : SysLE t u) : SysLE s u := by
  obtain ⟨a1, a2, a3, a4, a5, a6⟩ := h1
  obtain ⟨b1, b2, b3, b4, b5, b6⟩ := h2
  exact ⟨by omega, by omega, by omega, by omega, by omega, by omega⟩

theorem runA_mono {s : Sys} (h : GoodSys s) (ops : List Op) : SysLE s (runA s ops) := by
  induction ops generalizing s with
  | nil => exact ⟨le_refl _, le_refl _, le_refl _, le_refl _, le_refl _, le_refl _⟩
  | cons op ops ih =>
    exact SysLE_trans (stepA_mono h op) (ih (stepA_good h op))

theorem stepA_buffer_size (s : Sys) (op : Op) :
    (stepA s op).hdr.buffer_size = s.hdr.buffer_size := by
  cases op <;> simp only [stepA] <;> (try split_ifs) <;> simp

theorem runA_buffer_size (s : Sys) (ops : List Op) :
    (runA s ops).hdr.buffer_size = s.hdr.buffer_size := by
  induction ops generalizing s with
  | nil => rfl
  | cons op ops ih =>
    simp only [runA, List.foldl_cons] at ih ⊢
    rw [ih, stepA_buffer_size]

theorem initSys_good {cap : Nat} (hlt : cap < USIZE_MOD) : GoodSys (initSys cap) := by
  refine ⟨?_, ?_, ?_, ?_, ?_, ?_, ?_⟩ <;>
    simp [GoodSys, initSys, initHeader, from_header, load_read, load_write, hlt]

theorem project_initSys (cap : Nat) : project (initSys cap) = initSys cap := by
  simp [project, initSys, initHeader, from_header, load_read, load_write]

end Shaq

namespace Shaq

/-- C1: starting from an initialized queue (`write = read = 0`, capacity a
power of two `> 0`), every sequence of Producer operations (`reserve`,
`commit`, `sync`) and Consumer operations (`try_read`, `finalize`, `sync`)
keeps the occupancy `write - read` (wraparound-safe unsigned subtraction, over
the header cursors and over each handle's cached cursors) within
`[0, capacity]`, and the machine state is at every point the image modulo
`2 ^ 64` of unbounded-counter ghost cursors that are monotonically
non-decreasing over the whole lifetime (monotonicity modulo wraparound). -/
theorem c1_global_invariant (cap : Nat) (hpos : 0 < cap)
    (hpow : is_power_of_two cap = true) (ops more : List Op) :
    run (initSys cap) ops = project (runA (initSys cap) ops) ∧
    wrapping_sub (run (initSys cap) ops).hdr.write
      (run (initSys cap) ops).hdr.read ≤ cap ∧
    wrapping_sub (run (initSys cap) ops).prod.cached_write
      (run (initSys cap) ops).prod.cached_read ≤ cap ∧
    wrapping_sub (run (initSys cap) ops).cons.cached_write
      (run (initSys cap) ops).cons.cached_read ≤ cap ∧
    SysLE (runA (initSys cap) ops) (runA (initSys cap) (ops ++ more)) := by
  have hlt : cap < USIZE_MOD := is_power_of_two_lt_usize hpow
  have h0 : GoodSys (initSys cap) := initSys_good hlt
  obtain ⟨e, g⟩ := run_project h0 ops
  rw [project_initSys] at e
  have g' := g
  obtain ⟨g1, g2, g3, g4, g5, g6, g7⟩ := g'
  have hbs : (runA (initSys cap) ops).hdr.buffer_size = cap := by
    rw [runA_buffer_size]
    rfl
  rw [hbs] at g6 g7
  refine ⟨e, ?_, ?_, ?_, ?_⟩
  · rw [e]
    simp only [project]
    rw [wrapping_sub_mod_mod (by omega) (by omega)]
    omega
  · rw [e]
    simp only [project]
    rw [wrapping_sub_mod_mod (by omega) (by omega)]
    omega
  · rw [e]
    simp only [project]
    rw [wrapping_sub_mod_mod (by omega) (by omega)]
    omega
  · have hsplit : runA (initSys cap) (ops ++ more)
        = runA (runA (initSys cap) ops) more := by
      simp [runA, List.foldl_append]
    rw [hsplit]
    exact runA_mono g more

/-- Witness for `c1_global_invariant` at capacity 4 with a concrete operation
sequence. -/
theorem c1_global_invariant_witness :
    (0 < 4 ∧ is_power_of_two 4 = true) ∧
    (run (initSys 4) [Op.reserve] = project (runA (initSys 4) [Op.reserve]) ∧
     wrapping_sub (run (initSys 4) [Op.reserve]).hdr.write
       (run (initSys 4) [Op.reserve]).hdr.read ≤ 4 ∧
     wrapping_sub (run (initSys 4) [Op.reserve]).prod.cached_write
       (run (initSys 4) [Op.reserve]).prod.cached_read ≤ 4 ∧
     wrapping_sub (run (initSys 4) [Op.reserve]).cons.cached_write
       (run (initSys 4) [Op.reserve]).cons.cached_read ≤ 4 ∧
     SysLE (runA (initSys 4) [Op.reserve])
       (runA (initSys 4) ([Op.reserve] ++ [Op.commit]))) :=
  ⟨⟨by decide, by decide⟩,
   c1_global_invariant 4 (by decide) (by decide) [Op.reserve] [Op.commit]⟩

end Shaq

namespace Shaq

theorem stepOp_no_commit {s : Sys} (op : Op) (hop : op ≠ Op.commit)
    (h : s.hdr.write = 0 ∧ s.cons.cached_write = 0 ∧ s.cons.cached_read = 0) :
    (stepOp s op).hdr.write = 0 ∧ (stepOp s op).cons.cached_write = 0 ∧
    (stepOp s op).cons.cached_read = 0 := by
  obtain ⟨h1, h2, h3⟩ := h
  cases op with
  | reserve => exact ⟨h1, h2, h3⟩
  | commit => exact absurd rfl hop
  | psync => exact ⟨h1, h2, h3⟩
  | try_read =>
    have he : s.cons.cached_read = s.cons.cached_write := by omega
    simp only [stepOp, Consumer.try_read, if_pos he]
    exact ⟨h1, h2, h3⟩
  | finalize => exact ⟨h1, h2, h3⟩
  | csync =>
    simp only [stepOp, Consumer.sync, load_write]
    exact ⟨h1, h1, h3⟩

theorem run_no_commit {s : Sys} (ops : List Op) (hno : Op.commit ∉ ops)
    (h : s.hdr.write = 0 ∧ s.cons.cached_write = 0 ∧ s.cons.cached_read = 0) :
    (run s ops).hdr.write = 0 ∧ (run s ops).cons.cached_write = 0 ∧
    (run s ops).cons.cached_read = 0 := by
  induction ops generalizing s with
  | nil => exact h
  | cons op ops ih =>
    simp only [run, List.foldl_cons]
    have hop : op ≠ Op.commit := by
      intro e
      exact hno (by simp [e])
    have hno' : Op.commit ∉ ops := by
      intro m
      exact hno (List.mem_cons_of_mem _ m)
    exact ih hno' (stepOp_no_commit op hop h)

/-- C3: `Producer::reserve` returns `None` exactly when
`cached_write - cached_read` (wraparound-safe unsigned subtraction) is at
least the capacity, and then changes no state; otherwise it returns the slot
index `cached_write & (capacity - 1)` and advances only the private
`cached_write` by one, leaving the header's shared cursors (and the
consumer's state) unchanged. -/
theorem c3_reserve (hdr : SharedQueueHeader) (q : SharedQueue)
    (hmask : q.buffer_mask = hdr.buffer_size - 1) :
    ((Producer.reserve hdr q).1 = none ↔
      hdr.buffer_size ≤ wrapping_sub q.cached_write q.cached_read) ∧
    (hdr.buffer_size ≤ wrapping_sub q.cached_write q.cached_read →
      Producer.reserve hdr q = (none, q)) ∧
    (wrapping_sub q.cached_write q.cached_read < hdr.buffer_size →
      (Producer.reserve hdr q).1
          = some (Nat.land q.cached_write (hdr.buffer_size - 1)) ∧
      (Producer.reserve hdr q).2
          = { q with cached_write := wrapping_add q.cached_write 1 }) ∧
    (∀ s : Sys, (stepOp s Op.reserve).hdr = s.hdr ∧
      (stepOp s Op.reserve).cons = s.cons) := by
  refine ⟨?_, ?_, ?_, fun s => ⟨rfl, rfl⟩⟩
  · unfold Producer.reserve
    split_ifs with hg <;> simp [hg]
  · intro hg
    simp [Producer.reserve, hg]
  · intro hg
    have hg' : ¬ hdr.buffer_size ≤ wrapping_sub q.cached_write q.cached_read := by omega
    simp [Producer.reserve, hg', mask, hmask]

/-- Witness for `c3_reserve` on a fresh capacity-4 queue state. -/
theorem c3_reserve_witness :
    (Producer.reserve ⟨0, 0, 4⟩ ⟨3, 0, 0⟩).1 = some (Nat.land 0 (4 - 1)) ∧
    (Producer.reserve ⟨0, 0, 4⟩ ⟨3, 0, 0⟩).2
      = { (⟨3, 0, 0⟩ : SharedQueue) with cached_write := wrapping_add 0 1 } :=
  (c3_reserve ⟨0, 0, 4⟩ ⟨3, 0, 0⟩ (by decide)).2.2.1 (by decide)

/-- C4: `Consumer::try_read` returns `None` exactly when
`cached_read = cached_write`, with no state change; otherwise it returns the
slot index `cached_read & (capacity - 1)` and advances only the private
`cached_read` by one (header and producer state untouched).  On a queue
created by `initialize` and run through any operation sequence containing no
`commit`, `try_read` returns `None`. -/
theorem c4_try_read (hdr : SharedQueueHeader) (q : SharedQueue)
    (hmask : q.buffer_mask = hdr.buffer_size - 1) :
    ((Consumer.try_read q).1 = none ↔ q.cached_read = q.cached_write) ∧
    (q.cached_read = q.cached_write → Consumer.try_read q = (none, q)) ∧
    (q.cached_read ≠ q.cached_write →
      (Consumer.try_read q).1
          = some (Nat.land q.cached_read (hdr.buffer_size - 1)) ∧
      (Consumer.try_read q).2
          = { q with cached_read := wrapping_add q.cached_read 1 }) ∧
    (∀ s : Sys, (stepOp s Op.try_read).hdr = s.hdr ∧
      (stepOp s Op.try_read).prod = s.prod) ∧
    (∀ cap : Nat, ∀ ops : List Op, Op.commit ∉ ops →
      (Consumer.try_read (run (initSys cap) ops).cons).1 = none) := by
  refine ⟨?_, ?_, ?_, fun s => ⟨rfl, rfl⟩, ?_⟩
  · unfold Consumer.try_read
    split_ifs with hg <;> simp [hg]
  · intro hg
    simp [Consumer.try_read, hg]
  · intro hg
    simp [Consumer.try_read, hg, mask, hmask]
  · intro cap ops hno
    have h0 : (initSys cap).hdr.write = 0 ∧ (initSys cap).cons.cached_write = 0 ∧
        (initSys cap).cons.cached_read = 0 := by
      refine ⟨rfl, ?_, ?_⟩ <;> simp [initSys, initHeader, from_header, load_read, load_write]
    obtain ⟨-, hw, hr⟩ := run_no_commit ops hno h0
    simp [Consumer.try_read, hw, hr]

/-- Witness for `c4_try_read`: a successful read on a one-item queue state,
and emptiness after a commit-free operation sequence. -/
theorem c4_try_read_witness :
    ((Consumer.try_read ⟨3, 1, 0⟩).1 = some (Nat.land 0 (4 - 1)) ∧
     (Consumer.try_read ⟨3, 1, 0⟩).2
       = { (⟨3, 1, 0⟩ : SharedQueue) with cached_read := wrapping_add 0 1 }) ∧
    (Consumer.try_read (run (initSys 4) [Op.reserve, Op.csync]).cons).1 = none :=
  ⟨(c4_try_read ⟨0, 0, 4⟩ ⟨3, 1, 0⟩ (by decide)).2.2.1 (by decide),
   (c4_try_read ⟨0, 0, 4⟩ ⟨3, 1, 0⟩ (by decide)).2.2.2.2 4 [Op.reserve, Op.csync] (by decide)⟩

/-- C8: constructing a handle (`SharedQueue::from_header`) seeds both private
cached cursors from the header: after construction `cached_write` equals the
header's `write` and `cached_read` equals the header's `read` (and the mask is
`buffer_size - 1`), so a handle attached to a queue with pending state starts
from that state rather than from zero. -/
theorem c8_from_header_seeds (hdr : SharedQueueHeader) :
    (from_header hdr).cached_write = hdr.write ∧
    (from_header hdr).cached_read = hdr.read ∧
    (from_header hdr).buffer_mask = hdr.buffer_size - 1 := by
  refine ⟨?_, ?_, ?_⟩ <;> simp [from_header, load_read, load_write]

/-- C9: `commit` and `finalize` are idempotent publications: each
unconditionally stores the handle's private cursor into the corresponding
header cursor, so a second call with unchanged private state is a no-op, and
a call whose private cursor already equals the published cursor leaves the
header unchanged. -/
theorem c9_commit_finalize_idempotent (q : SharedQueue) (hdr : SharedQueueHeader) :
    Producer.commit q (Producer.commit q hdr) = Producer.commit q hdr ∧
    Consumer.finalize q (Consumer.finalize q hdr) = Consumer.finalize q hdr ∧
    (hdr.write = q.cached_write → Producer.commit q hdr = hdr) ∧
    (hdr.read = q.cached_read → Consumer.finalize q hdr = hdr) := by
  refine ⟨rfl, rfl, ?_, ?_⟩ <;> intro h <;>
    simp [Producer.commit, Consumer.finalize, ← h]

/-- Witness for `c9_commit_finalize_idempotent` at a state whose published
cursors already match the private caches. -/
theorem c9_commit_finalize_idempotent_witness :
    Producer.commit ⟨3, 5, 2⟩ ⟨5, 2, 4⟩ = ⟨5, 2, 4⟩ ∧
    Consumer.finalize ⟨3, 5, 2⟩ ⟨5, 2, 4⟩ = ⟨5, 2, 4⟩ :=
  ⟨(c9_commit_finalize_idempotent ⟨3, 5, 2⟩ ⟨5, 2, 4⟩).2.2.1 (by decide),
   (c9_commit_finalize_idempotent ⟨3, 5, 2⟩ ⟨5, 2, 4⟩).2.2.2 (by decide)⟩

end Shaq

namespace Shaq

theorem run_rcPairs (cap k : Nat) (hcap : cap < USIZE_MOD) (hk : k ≤ cap) :
    run (initSys cap) (rcPairs k) =
      { hdr := { write := k, read := 0, buffer_size := cap },
        prod := { buffer_mask := cap - 1, cached_write := k, cached_read := 0 },
        cons := { buffer_mask := cap - 1, cached_write := 0, cached_read := 0 } } := by
  induction k with
  | zero =>
    simp [run, rcPairs, initSys, initHeader, from_header, load_read, load_write]
  | succ k ih =>
    have hk' : k ≤ cap := by omega
    have hrun : run (initSys cap) (rcPairs (k + 1))
        = run (run (initSys cap) (rcPairs k)) [Op.reserve, Op.commit] := by
      simp [rcPairs, run, List.foldl_append]
    have hwsub : wrapping_sub k 0 = k := by
      simp only [wrapping_sub, USIZE_MOD] at hcap ⊢
      omega
    have hadd : wrapping_add k 1 = k + 1 := by
      simp only [wrapping_add, USIZE_MOD] at hcap ⊢
      omega
    have hng : ¬ (cap ≤ wrapping_sub k 0) := by
      rw [hwsub]
      omega
    rw [hrun, ih hk']
    simp [run, stepOp, Producer.reserve, Producer.commit, hng, hadd]

/-- C5: on a freshly initialized queue of capacity `cap`, each of the first
`cap` `reserve`+`commit` pairs succeeds, the next `reserve` after exactly
`cap` pairs returns `None` (full); and once the consumer syncs, reads one
slot and finalizes, and the producer syncs, the next `reserve` succeeds. -/
theorem c5_full_then_free (cap : Nat) (hpos : 0 < cap)
    (hpow : is_power_of_two cap = true) :
    (∀ k, k < cap →
      (Producer.reserve (run (initSys cap) (rcPairs k)).hdr
        (run (initSys cap) (rcPairs k)).prod).1.isSome = true) ∧
    (Producer.reserve (run (initSys cap) (rcPairs cap)).hdr
      (run (initSys cap) (rcPairs cap)).prod).1 = none ∧
    (Consumer.try_read
      (run (initSys cap) (rcPairs cap ++ [Op.csync])).cons).1.isSome = true ∧
    (Producer.reserve
      (run (initSys cap)
        (rcPairs cap ++ [Op.csync, Op.try_read, Op.finalize, Op.psync])).hdr
      (run (initSys cap)
        (rcPairs cap ++ [Op.csync, Op.try_read, Op.finalize, Op.psync])).prod).1.isSome
      = true := by
  have hcap : cap < USIZE_MOD := is_power_of_two_lt_usize hpow
  have hM : (1 : Nat) < USIZE_MOD := by
    simp only [USIZE_MOD]
    omega
  have wc : wrapping_sub cap 0 = cap := by
    simp only [wrapping_sub, USIZE_MOD] at hcap ⊢
    omega
  have w01 : wrapping_add 0 1 = 1 := by
    simp only [wrapping_add, USIZE_MOD]
  have wc1 : wrapping_sub cap 1 = cap - 1 := by
    simp only [wrapping_sub, USIZE_MOD] at hcap ⊢
    omega
  refine ⟨?_, ?_, ?_, ?_⟩
  · intro k hklt
    rw [run_rcPairs cap k hcap (by omega)]
    have hwsub : wrapping_sub k 0 = k := by
      simp only [wrapping_sub, USIZE_MOD] at hcap ⊢
      omega
    have hng : ¬ (cap ≤ wrapping_sub k 0) := by
      rw [hwsub]
      omega
    simp [Producer.reserve, hng]
  · rw [run_rcPairs cap cap hcap le_rfl]
    simp [Producer.reserve, wc]
  · have hsplit : run (initSys cap) (rcPairs cap ++ [Op.csync])
        = run (run (initSys cap) (rcPairs cap)) [Op.csync] := by
      simp [run, List.foldl_append]
    have hne : ¬ ((0 : Nat) = cap) := by omega
    rw [hsplit, run_rcPairs cap cap hcap le_rfl]
    simp [run, stepOp, Consumer.sync, load_write, Consumer.try_read, hne]
  · have hsplit : run (initSys cap)
        (rcPairs cap ++ [Op.csync, Op.try_read, Op.finalize, Op.psync])
        = run (run (initSys cap) (rcPairs cap))
            [Op.csync, Op.try_read, Op.finalize, Op.psync] := by
      simp [run, List.foldl_append]
    have hne : ¬ ((0 : Nat) = cap) := by omega
    have hng : ¬ (cap ≤ wrapping_sub cap 1) := by
      rw [wc1]
      omega
    rw [hsplit, run_rcPairs cap cap hcap le_rfl]
    simp [run, stepOp, Consumer.sync, Consumer.try_read, Consumer.finalize,
      Producer.sync, load_write, load_read, hne, w01]
    simp [Producer.reserve, hng]

/-- Witness for `c5_full_then_free` at capacity 2. -/
theorem c5_full_then_free_witness :
    ((Producer.reserve (run (initSys 2) (rcPairs 1)).hdr
        (run (initSys 2) (rcPairs 1)).prod).1.isSome = true) ∧
    (Producer.reserve (run (initSys 2) (rcPairs 2)).hdr
      (run (initSys 2) (rcPairs 2)).prod).1 = none ∧
    (Consumer.try_read
      (run (initSys 2) (rcPairs 2 ++ [Op.csync])).cons).1.isSome = true ∧
    (Producer.reserve
      (run (initSys 2)
        (rcPairs 2 ++ [Op.csync, Op.try_read, Op.finalize, Op.psync])).hdr
      (run (initSys 2)
        (rcPairs 2 ++ [Op.csync, Op.try_read, Op.finalize, Op.psync])).prod).1.isSome
      = true :=
  ⟨(c5_full_then_free 2 (by decide) (by decide)).1 1 (by decide),
   (c5_full_then_free 2 (by decide) (by decide)).2.1,
   (c5_full_then_free 2 (by decide) (by decide)).2.2.1,
   (c5_full_then_free 2 (by decide) (by decide)).2.2.2⟩

end Shaq

namespace Shaq

/-- C7: counter arithmetic stays correct across wraparound of the 64-bit
word.  For unbounded cursors `R ≤ W` with occupancy `W - R` at most the
capacity `2 ^ j`: the wrapping subtraction of the wrapped cursors recovers
the true occupancy, the fullness test and the emptiness test agree with the
unbounded counters, and the slot index obtained by masking a wrapped cursor
with `capacity - 1` equals the sequence number modulo the capacity — so
indices follow FIFO order, and two in-flight sequence numbers (less than one
capacity apart) never alias to the same slot. -/
theorem c7_wraparound_consistency (j W R : Nat) (hj : j < 64) (hWR : R ≤ W)
    (hocc : W - R ≤ 2 ^ j) :
    wrapping_sub (W % USIZE_MOD) (R % USIZE_MOD) = W - R ∧
    (2 ^ j ≤ wrapping_sub (W % USIZE_MOD) (R % USIZE_MOD) ↔ 2 ^ j ≤ W - R) ∧
    (W % USIZE_MOD = R % USIZE_MOD ↔ W = R) ∧
    (∀ q : SharedQueue, q.buffer_mask = 2 ^ j - 1 →
      ∀ n : Nat, mask q (n % USIZE_MOD) = n % 2 ^ j) ∧
    (∀ q : SharedQueue, q.buffer_mask = 2 ^ j - 1 →
      ∀ a b : Nat, a < b → b < a + 2 ^ j →
        mask q (a % USIZE_MOD) ≠ mask q (b % USIZE_MOD)) := by
  have hjle : 2 ^ j ≤ 2 ^ 63 := Nat.pow_le_pow_right (by norm_num) (by omega)
  have hjle' : 2 ^ j ≤ 9223372036854775808 := by
    have h63 : (2 : Nat) ^ 63 = 9223372036854775808 := by norm_num
    omega
  have hlt : W - R < USIZE_MOD := by
    simp only [USIZE_MOD]
    omega
  have hmaskeq : ∀ q : SharedQueue, q.buffer_mask = 2 ^ j - 1 →
      ∀ n : Nat, mask q (n % USIZE_MOD) = n % 2 ^ j := by
    intro q hq n
    have hand : Nat.land (n % USIZE_MOD) (2 ^ j - 1) = (n % USIZE_MOD) % 2 ^ j :=
      Nat.and_pow_two_sub_one_eq_mod (n % USIZE_MOD) j
    have hdvd : (2 : Nat) ^ j ∣ USIZE_MOD := by
      rw [USIZE_MOD_eq]
      exact pow_dvd_pow 2 (by omega)
    rw [mask, hq, hand, Nat.mod_mod_of_dvd n hdvd]
  refine ⟨wrapping_sub_mod_mod hWR hlt, ?_, mod_eq_mod_iff_usize hWR hlt, hmaskeq, ?_⟩
  · rw [wrapping_sub_mod_mod hWR hlt]
  · intro q hq a b hab hwin heq
    rw [hmaskeq q hq a, hmaskeq q hq b] at heq
    have hmod : a ≡ b [MOD 2 ^ j] := heq
    have hdvd : (2 : Nat) ^ j ∣ b - a := (Nat.modEq_iff_dvd' (by omega)).mp hmod
    have hle : 2 ^ j ≤ b - a := Nat.le_of_dvd (by omega) hdvd
    omega

/-- Witness for `c7_wraparound_consistency` across the `2 ^ 64` boundary. -/
theorem c7_wraparound_consistency_witness :
    wrapping_sub ((2 ^ 64 + 1) % USIZE_MOD) ((2 ^ 64 - 1) % USIZE_MOD)
      = (2 ^ 64 + 1) - (2 ^ 64 - 1) ∧
    mask ⟨2 ^ 2 - 1, 0, 0⟩ ((2 ^ 64 + 7) % USIZE_MOD) = (2 ^ 64 + 7) % 2 ^ 2 :=
  ⟨(c7_wraparound_consistency 2 (2 ^ 64 + 1) (2 ^ 64 - 1) (by decide) (by decide)
      (by decide)).1,
   (c7_wraparound_consistency 2 (2 ^ 64 + 1) (2 ^ 64 - 1) (by decide) (by decide)
      (by decide)).2.2.2.1 ⟨2 ^ 2 - 1, 0, 0⟩ rfl (2 ^ 64 + 7)⟩

end Shaq

namespace Shaq

theorem land_not_mask (x k : Nat) (hk : k ≤ 64) (hx : x < 2 ^ 64) :
    Nat.land x (2 ^ 64 - 2 ^ k) = x / 2 ^ k * 2 ^ k := by
  have hrw : 2 ^ 64 - 2 ^ k = (2 ^ (64 - k) - 1) <<< k := by
    rw [Nat.shiftLeft_eq, Nat.sub_mul, one_mul, ← pow_add]
    congr 2
    omega
  have hdm : x / 2 ^ k * 2 ^ k = (x >>> k) <<< k := by
    rw [Nat.shiftRight_eq_div_pow, Nat.shiftLeft_eq]
  have hland : Nat.land x ((2 ^ (64 - k) - 1) <<< k)
      = x &&& ((2 ^ (64 - k) - 1) <<< k) := rfl
  rw [hrw, hdm, hland]
  apply Nat.eq_of_testBit_eq
  intro i
  rw [Nat.testBit_and, Nat.testBit_shiftLeft, Nat.testBit_shiftLeft,
    Nat.testBit_shiftRight, Nat.testBit_two_pow_sub_one]
  by_cases hki : k ≤ i
  · by_cases hi : i < 64
    · have e1 : k + (i - k) = i := by omega
      have e2 : i - k < 64 - k := by omega
      simp [hki, e1, e2]
    · have hxf : x.testBit i = false :=
        Nat.testBit_lt_two_pow (lt_of_lt_of_le hx (Nat.pow_le_pow_right (by norm_num) (by omega)))
      have hxf2 : x.testBit (k + (i - k)) = false := by
        have e1 : k + (i - k) = i := by omega
        rw [e1, hxf]
      have e2 : ¬ (i - k < 64 - k) := by omega
      simp [hki, hxf, hxf2, e2]
  · simp [hki]

theorem calc_buffer_offset (k : Nat) (hk : k ≤ 63) :
    Nat.land (wrapping_sub (wrapping_add HEADER_SIZE (2 ^ k)) 1)
      ((USIZE_MOD - 1) - wrapping_sub (2 ^ k) 1)
      = align_up HEADER_SIZE (2 ^ k) := by
  have hone : 1 ≤ 2 ^ k := Nat.one_le_two_pow
  have hle : 2 ^ k ≤ 9223372036854775808 := by
    have h1 : 2 ^ k ≤ 2 ^ 63 := Nat.pow_le_pow_right (by norm_num) hk
    have h2 : (2 : Nat) ^ 63 = 9223372036854775808 := by norm_num
    omega
  have h1 : wrapping_add HEADER_SIZE (2 ^ k) = HEADER_SIZE + 2 ^ k := by
    simp only [wrapping_add, USIZE_MOD, HEADER_SIZE]
    omega
  have h2 : wrapping_sub (HEADER_SIZE + 2 ^ k) 1 = HEADER_SIZE + 2 ^ k - 1 := by
    simp only [wrapping_sub, USIZE_MOD, HEADER_SIZE]
    omega
  have h3 : wrapping_sub (2 ^ k) 1 = 2 ^ k - 1 := by
    simp only [wrapping_sub, USIZE_MOD]
    omega
  have h4 : (USIZE_MOD - 1) - (2 ^ k - 1) = 2 ^ 64 - 2 ^ k := by
    rw [USIZE_MOD_eq]
    omega
  have hx : HEADER_SIZE + 2 ^ k - 1 < 2 ^ 64 := by
    simp only [HEADER_SIZE]
    have h2' : (2 : Nat) ^ 64 = 18446744073709551616 := by norm_num
    omega
  rw [h1, h2, h3, h4, land_not_mask _ k (by omega) hx]
  rfl

theorem log2fuel_spec (f : Nat) : ∀ n, 1 ≤ n → n < 2 ^ f →
    2 ^ log2fuel f n ≤ n ∧ n < 2 ^ (log2fuel f n + 1) := by
  induction f with
  | zero =>
    intro n h1 h2
    simp at h2
    omega
  | succ f ih =>
    intro n h1 h2
    by_cases hn : 2 ≤ n
    · have h1' : 1 ≤ n / 2 := by omega
      have hpow : 2 ^ (f + 1) = 2 * 2 ^ f := by ring
      have h2' : n / 2 < 2 ^ f := by omega
      obtain ⟨ha, hb⟩ := ih (n / 2) h1' h2'
      simp only [log2fuel, if_pos hn]
      have hpow2 : 2 ^ (log2fuel f (n / 2) + 1) = 2 * 2 ^ log2fuel f (n / 2) := by ring
      have hpow3 : 2 ^ (log2fuel f (n / 2) + 1 + 1) = 2 * 2 ^ (log2fuel f (n / 2) + 1) := by
        ring
      omega
    · have hn1 : n = 1 := by omega
      subst hn1
      simp [log2fuel]

theorem next_power_of_two_spec {n : Nat} (h2 : 2 ≤ n) (hle : n ≤ 2 ^ 63) :
    next_power_of_two n = 2 ^ (log2fuel 64 (n - 1) + 1) ∧
    2 ^ log2fuel 64 (n - 1) ≤ n - 1 ∧
    n - 1 < 2 ^ (log2fuel 64 (n - 1) + 1) ∧
    log2fuel 64 (n - 1) ≤ 62 := by
  have hb1 : 1 ≤ n - 1 := by omega
  have hb2 : n - 1 < 2 ^ 64 := by
    have : (2 : Nat) ^ 63 < 2 ^ 64 := by norm_num
    omega
  obtain ⟨ha, hb⟩ := log2fuel_spec 64 (n - 1) hb1 hb2
  have hL : log2fuel 64 (n - 1) ≤ 62 := by
    by_contra hgt
    have h63 : 63 ≤ log2fuel 64 (n - 1) := by omega
    have : (2 : Nat) ^ 63 ≤ 2 ^ log2fuel 64 (n - 1) :=
      Nat.pow_le_pow_right (by norm_num) h63
    omega
  have hlt : 2 ^ (log2fuel 64 (n - 1) + 1) < USIZE_MOD := by
    rw [USIZE_MOD_eq]
    exact Nat.pow_lt_pow_right (by norm_num) (by omega)
  refine ⟨?_, ha, hb, hL⟩
  unfold next_power_of_two
  rw [if_neg (by omega), Nat.mod_eq_of_lt hlt]

end Shaq

namespace Shaq

theorem calculate_eq (itemSize k fileSize : Nat) (hk : k ≤ 63) :
    calculate_buffer_size_in_items itemSize (2 ^ k) fileSize =
      (if fileSize < align_up HEADER_SIZE (2 ^ k) then CalcOutcome.invalidBufferSize
       else if itemSize = 0 then CalcOutcome.divByZero
       else if is_power_of_two ((fileSize - align_up HEADER_SIZE (2 ^ k)) / itemSize)
         then CalcOutcome.ok ((fileSize - align_up HEADER_SIZE (2 ^ k)) / itemSize)
       else if next_power_of_two
           ((fileSize - align_up HEADER_SIZE (2 ^ k)) / itemSize) >>> 1 = 0
         then CalcOutcome.invalidBufferSize
       else CalcOutcome.ok
         (next_power_of_two ((fileSize - align_up HEADER_SIZE (2 ^ k)) / itemSize) >>> 1)) := by
  simp only [calculate_buffer_size_in_items]
  rw [calc_buffer_offset k hk]

/-- C2 (amended): for every `region_size`, positive `item_size` and item
alignment `2 ^ k`, provided the usable item count
`(region_size - align_up(header_size, item_align)) / item_size` does not
exceed `2 ^ 63` (so that `next_power_of_two` cannot overflow), the capacity
computation returns the largest power of two `N` with
`N * item_size ≤ region_size - align_up(header_size, item_align)`, and it
fails with `InvalidBufferSize` exactly when
`region_size < align_up(header_size, item_align)` or no such `N ≥ 1`
exists. -/
theorem c2_capacity_largest_pow2 (itemSize k fileSize : Nat) (hsize : 0 < itemSize)
    (hk : k ≤ 63)
    (hcount : (fileSize - align_up HEADER_SIZE (2 ^ k)) / itemSize ≤ 2 ^ 63) :
    (∀ N, calculate_buffer_size_in_items itemSize (2 ^ k) fileSize = .ok N →
      is_power_of_two N = true ∧
      N * itemSize ≤ fileSize - align_up HEADER_SIZE (2 ^ k) ∧
      (∀ P, is_power_of_two P = true →
        P * itemSize ≤ fileSize - align_up HEADER_SIZE (2 ^ k) → P ≤ N)) ∧
    (calculate_buffer_size_in_items itemSize (2 ^ k) fileSize = .invalidBufferSize ↔
      (fileSize < align_up HEADER_SIZE (2 ^ k) ∨
        ¬ ∃ N, 1 ≤ N ∧ is_power_of_two N = true ∧
          N * itemSize ≤ fileSize - align_up HEADER_SIZE (2 ^ k))) := by
  rw [calculate_eq itemSize k fileSize hk]
  set off := align_up HEADER_SIZE (2 ^ k) with hoffdef
  set count := (fileSize - off) / itemSize with hcountdef
  by_cases hoff : fileSize < off
  · rw [if_pos hoff]
    exact ⟨fun N h => absurd h (by simp), iff_of_true rfl (Or.inl hoff)⟩
  · rw [if_neg hoff, if_neg (by omega)]
    by_cases hpow : is_power_of_two count = true
    · rw [if_pos hpow]
      refine ⟨?_, ?_⟩
      · intro N h
        have hN : N = count := by
          cases h
          rfl
        subst hN
        refine ⟨hpow, Nat.div_mul_le_self _ _, ?_⟩
        intro P hPpow hPle
        exact (Nat.le_div_iff_mul_le hsize).mpr hPle
      · refine iff_of_false (by simp) ?_
        rintro (h | h)
        · exact hoff h
        · exact h ⟨count, is_power_of_two_pos hpow,
            hpow, Nat.div_mul_le_self _ _⟩
    · have hc1 : count ≠ 1 := by
        intro e
        rw [e] at hpow
        exact hpow (by decide)
      by_cases hc0 : count = 0
      · have hnpt : next_power_of_two count >>> 1 = 0 := by
          rw [hc0]
          decide
        rw [if_neg hpow, if_pos hnpt]
        refine ⟨fun N h => absurd h (by simp), iff_of_true rfl (Or.inr ?_)⟩
        rintro ⟨N, hN1, -, hNle⟩
        have hmul : itemSize ≤ N * itemSize := Nat.le_mul_of_pos_left itemSize (by omega)
        have h1c : 1 ≤ count := by
          rw [hcountdef]
          refine (Nat.le_div_iff_mul_le hsize).mpr ?_
          rw [one_mul]
          exact le_trans hmul hNle
        omega
      · have hc2 : 2 ≤ count := (Nat.two_le_iff count).mpr ⟨hc0, hc1⟩
        obtain ⟨hnpt, ha, hb, hL⟩ := next_power_of_two_spec hc2 hcount
        set L := log2fuel 64 (count - 1) with hLdef
        have hsh : next_power_of_two count >>> 1 = 2 ^ L := by
          rw [hnpt, Nat.shiftRight_eq_div_pow]
          rw [pow_succ]
          simp
        have hLpow : is_power_of_two (2 ^ L) = true :=
          is_power_of_two_iff.mpr ⟨L, by omega, rfl⟩
        have hcount_lt : count < 2 ^ (L + 1) := by
          have hle : count ≤ 2 ^ (L + 1) := by omega
          rcases Nat.lt_or_ge count (2 ^ (L + 1)) with h | h
          · exact h
          · exfalso
            have he : count = 2 ^ (L + 1) := by omega
            rw [he] at hpow
            exact hpow (is_power_of_two_iff.mpr ⟨L + 1, by omega, rfl⟩)
        have hok : (2 ^ L : Nat) ≠ 0 :=
          Nat.pos_iff_ne_zero.mp (Nat.pos_pow_of_pos L (by norm_num))
        rw [if_neg hpow, hsh, if_neg hok]
        refine ⟨?_, ?_⟩
        · intro N h
          have hN : N = 2 ^ L := by
            cases h
            rfl
          subst hN
          refine ⟨hLpow, ?_, ?_⟩
          · have hle_count : 2 ^ L ≤ count := by omega
            exact (Nat.le_div_iff_mul_le hsize).mp (hcountdef ▸ hle_count)
          · intro P hPpow hPle
            obtain ⟨jp, hjp, rfl⟩ := is_power_of_two_iff.mp hPpow
            have hPc : 2 ^ jp ≤ count :=
              hcountdef ▸ (Nat.le_div_iff_mul_le hsize).mpr hPle
            have : 2 ^ jp < 2 ^ (L + 1) := by omega
            have hjL : jp < L + 1 := (Nat.pow_lt_pow_iff_right (by norm_num)).mp this
            exact Nat.pow_le_pow_right (by norm_num) (by omega)
        · refine iff_of_false (by simp) ?_
          rintro (h | h)
          · exact hoff h
          · refine h ⟨2 ^ L, Nat.pos_pow_of_pos L (by norm_num), hLpow, ?_⟩
            have hle_count : 2 ^ L ≤ count := by omega
            exact (Nat.le_div_iff_mul_le hsize).mp (hcountdef ▸ hle_count)

/-- Witness for `c2_capacity_largest_pow2`: an 8192-byte region of 8-byte,
8-aligned items yields capacity 512, a power of two fitting in
`8192 - 192 = 8000` bytes. -/
theorem c2_capacity_largest_pow2_witness :
    is_power_of_two 512 = true ∧
    512 * 8 ≤ 8192 - align_up HEADER_SIZE (2 ^ 3) :=
  ⟨((c2_capacity_largest_pow2 8 3 8192 (by decide) (by decide) (by decide)).1
      512 (by decide)).1,
   ((c2_capacity_largest_pow2 8 3 8192 (by decide) (by decide) (by decide)).1
      512 (by decide)).2.1⟩

/-- Counterexample to C2 as literally stated: at
`region_size = HEADER_SIZE + 2 ^ 63 + 1`, `item_size = 1`, `item_align = 1`,
the usable item count is `2 ^ 63 + 1`; Rust's `next_power_of_two` overflows
(wrapping to 0 in release builds), so the code returns `InvalidBufferSize`
even though `N = 2 ^ 63` is a power of two with
`N * item_size ≤ region_size - align_up(header_size, item_align)`. -/
theorem c2_counterexample :
    calculate_buffer_size_in_items 1 1 (HEADER_SIZE + 2 ^ 63 + 1)
      = .invalidBufferSize ∧
    is_power_of_two (2 ^ 63) = true ∧
    2 ^ 63 * 1 ≤ (HEADER_SIZE + 2 ^ 63 + 1) - align_up HEADER_SIZE 1 := by
  refine ⟨by decide, by decide, by decide⟩

/-- C10: the capacity computation is total for every item type of non-zero
size — the division's panic branch is unreachable when `item_size > 0` —
while a zero-sized item type does reach it (division by zero panics). -/
theorem c10_total_unless_zst (itemSize itemAlign fileSize : Nat)
    (hsize : 0 < itemSize) :
    calculate_buffer_size_in_items itemSize itemAlign fileSize ≠ .divByZero ∧
    calculate_buffer_size_in_items 0 1 HEADER_SIZE = .divByZero := by
  refine ⟨?_, by decide⟩
  intro hcontra
  simp only [calculate_buffer_size_in_items] at hcontra
  split_ifs at hcontra
  all_goals simp_all

/-- Witness for `c10_total_unless_zst` at `item_size = 1`. -/
theorem c10_total_unless_zst_witness :
    calculate_buffer_size_in_items 1 1 0 ≠ .divByZero ∧
    calculate_buffer_size_in_items 0 1 HEADER_SIZE = .divByZero :=
  c10_total_unless_zst 1 1 0 (by decide)

end Shaq

namespace Shaq

/-- C6 (amended): provided `capacity * item_size + header_size` does not
overflow a `usize`, the join-path validation fails with `InvalidBufferSize`
if and only if the stored capacity is 0, is not a power of two, or
`capacity * item_size + header_size` exceeds the mapped file size; and when
it succeeds the header is returned entirely unchanged (no
re-initialization). -/
theorem c6_join_validation (hdr : SharedQueueHeader) (itemSize fileSize : Nat)
    (hnof : hdr.buffer_size * itemSize + HEADER_SIZE < USIZE_MOD) :
    (joinValidate hdr itemSize fileSize = .invalidBufferSize ↔
      (hdr.buffer_size = 0 ∨ is_power_of_two hdr.buffer_size = false ∨
        fileSize < hdr.buffer_size * itemSize + HEADER_SIZE)) ∧
    (∀ h2, joinValidate hdr itemSize fileSize = .ok h2 → h2 = hdr) := by
  have hw : wrapping_add (wrapping_mul hdr.buffer_size itemSize) HEADER_SIZE
      = hdr.buffer_size * itemSize + HEADER_SIZE := by
    simp only [wrapping_add, wrapping_mul, HEADER_SIZE, USIZE_MOD] at hnof ⊢
    omega
  unfold joinValidate
  rw [hw]
  split_ifs with hg
  · exact ⟨iff_of_true rfl hg, fun h2 h => absurd h (by simp)⟩
  · refine ⟨iff_of_false (by simp) hg, fun h2 h => ?_⟩
    cases h
    rfl

/-- Witness for `c6_join_validation` on a valid capacity-4 header. -/
theorem c6_join_validation_witness :
    (joinValidate { write := 3, read := 1, buffer_size := 4 } 8 1000
        = .invalidBufferSize ↔
      (({ write := 3, read := 1, buffer_size := 4 } : SharedQueueHeader).buffer_size
          = 0 ∨
        is_power_of_two
          ({ write := 3, read := 1, buffer_size := 4 } :
            SharedQueueHeader).buffer_size = false ∨
        1000 < ({ write := 3, read := 1, buffer_size := 4 } :
            SharedQueueHeader).buffer_size * 8 + HEADER_SIZE)) ∧
    ({ write := 3, read := 1, buffer_size := 4 } : SharedQueueHeader)
      = { write := 3, read := 1, buffer_size := 4 } :=
  ⟨(c6_join_validation { write := 3, read := 1, buffer_size := 4 } 8 1000
      (by decide)).1,
   (c6_join_validation { write := 3, read := 1, buffer_size := 4 } 8 1000
      (by decide)).2 { write := 3, read := 1, buffer_size := 4 } (by decide)⟩

/-- Counterexample to C6 as literally stated: with stored capacity `2 ^ 62`,
8-byte items and a 1000-byte mapping, the mathematical condition
`capacity * item_size + header_size > mapped_size` holds
(`2 ^ 65 + 192 > 1000`), so the claim requires `InvalidBufferSize`; but the
release-mode usize product wraps to 0 and the validation succeeds. -/
theorem c6_counterexample :
    joinValidate { write := 0, read := 0, buffer_size := 2 ^ 62 } 8 1000
      = .ok { write := 0, read := 0, buffer_size := 2 ^ 62 } ∧
    1000 < 2 ^ 62 * 8 + HEADER_SIZE := by
  refine ⟨by decide, by decide⟩

end Shaq
